import Mathlib

/-!
# `process_buffer` (src/target.c)

A shallow embedding of the single C function of the repository,

    int process_buffer(const uint8_t* data, size_t size)

The memory behind `data` is a list of bytes; `size` is the separate length
argument, exactly as in the C signature.  Every `data[i]` is a lookup that may
fail, and every lookup is logged, so that statements about which indices the
function touches can be made.  The store through the null pointer is an
outcome of its own (`fault`): nothing after it is executed.
-/

namespace Target

/-- A `uint8_t`. -/
abbrev Byte := Fin 256

/-- Result of running a piece of the function body: it either goes on with a
value, or stops at the store through the null pointer, or stops at a read of
`data[i]` that lies outside the memory behind `data`. -/
inductive Res (α : Type) where
  | ok (a : α)
  | fault
  | oob (i : Nat)
deriving DecidableEq, Repr

/-- A piece of the function body: it takes the log of the indices read so far
and gives its result with the extended log. -/
def Exec (α : Type) : Type := List Nat → Res α × List Nat

/-- Go on with a value, reading nothing. -/
def Exec.pure {α : Type} (a : α) : Exec α := fun log => (Res.ok a, log)

/-- Sequencing: the second piece runs only when the first one goes on. -/
def Exec.bind {α β : Type} (m : Exec α) (f : α → Exec β) : Exec β := fun log =>
  match m log with
  | (Res.ok a, log1) => f a log1
  | (Res.fault, log1) => (Res.fault, log1)
  | (Res.oob i, log1) => (Res.oob i, log1)

instance : Monad Exec where
  pure := Exec.pure
  bind := Exec.bind

/-- The expression `data[i]`: logs the index, and yields the byte when the
index lies inside the memory behind `data`. -/
def load (data : List Byte) (i : Nat) : Exec Byte := fun log =>
  match data[i]? with
  | some b => (Res.ok b, log ++ [i])
  | none => (Res.oob i, log ++ [i])

/-- The expression `data[i] == c` for a character constant `c`: both sides are
promoted to `int`, so the comparison is one of numbers. -/
def loadEq (data : List Byte) (i : Nat) (c : Nat) : Exec Bool := do
  let b ← load data i
  return decide (b.val = c)

/-- The operator `&&` of C: the right operand is evaluated only when the left
one is true. -/
def land (a b : Exec Bool) : Exec Bool := do
  if (← a) then b else return false

/-- The statements `char* p = NULL; *p = 1;`. -/
def nullWrite : Exec Unit := fun log => (Res.fault, log)

/-- The body of `process_buffer`, statement by statement. -/
def process_buffer (data : List Byte) (size : Nat) : Exec Int := do
  if size < 4 then return 0
  if (← land (land (land (loadEq data 0 0x46) (loadEq data 1 0x55))
        (loadEq data 2 0x5A)) (loadEq data 3 0x5A)) then
    if (← land (return decide (size > 4)) (loadEq data 4 0x58)) then
      nullWrite
    return 1
  return 0

/-- How a call ends, as seen from outside. -/
inductive Outcome where
  | ret (v : Int)
  | fault
  | oob (i : Nat)
deriving DecidableEq, Repr

/-- A finished call: how it ended and the indices of `data` it read, in
order. -/
structure Run where
  outcome : Outcome
  reads : List Nat
deriving DecidableEq, Repr

/-- One call `process_buffer(data, size)`, started with an empty log. -/
def run (data : List Byte) (size : Nat) : Run :=
  match process_buffer data size [] with
  | (Res.ok v, log) => ⟨Outcome.ret v, log⟩
  | (Res.fault, log) => ⟨Outcome.fault, log⟩
  | (Res.oob i, log) => ⟨Outcome.oob i, log⟩

/-- The marker `"FUZZ"`. -/
def FUZZ : List Byte := [0x46, 0x55, 0x5A, 0x5A]

/-- The marker followed by the trigger byte: `"FUZZX"`. -/
def FUZZX : List Byte := [0x46, 0x55, 0x5A, 0x5A, 0x58]

/-- Equality with a byte constant is equality of the numbers, which is what
the comparison in C tests. -/
theorem byte_eq_iff (b : Byte) (c : Nat) (hc : c < 256) :
    b = (⟨c, hc⟩ : Fin 256) ↔ b.val = c := Fin.ext_iff

/-- A call with `size < 4` returns 0 and reads nothing. -/
theorem run_small (data : List Byte) (size : Nat) (h : size < 4) :
    run data size = ⟨Outcome.ret 0, []⟩ := by
  simp [run, process_buffer, h, pure, Exec.pure]

/-- A call with `4 ≤ size` on memory of at least four bytes, in full. -/
theorem run_four (a b c d : Byte) (rest : List Byte) (size : Nat) (h : 4 ≤ size) :
    run (a :: b :: c :: d :: rest) size =
      if a = 0x46 then
        if b = 0x55 then
          if c = 0x5A then
            if d = 0x5A then
              if 4 < size then
                match rest with
                | [] => ⟨Outcome.oob 4, [0, 1, 2, 3, 4]⟩
                | e :: _ =>
                  if e = 0x58 then ⟨Outcome.fault, [0, 1, 2, 3, 4]⟩
                  else ⟨Outcome.ret 1, [0, 1, 2, 3, 4]⟩
              else ⟨Outcome.ret 1, [0, 1, 2, 3]⟩
            else ⟨Outcome.ret 0, [0, 1, 2, 3]⟩
          else ⟨Outcome.ret 0, [0, 1, 2]⟩
        else ⟨Outcome.ret 0, [0, 1]⟩
      else ⟨Outcome.ret 0, [0]⟩ := by
  have hs : ¬ size < 4 := by omega
  have ea : a = 0x46 ↔ a.val = 0x46 := byte_eq_iff a 0x46 (by decide)
  have eb : b = 0x55 ↔ b.val = 0x55 := byte_eq_iff b 0x55 (by decide)
  have ec : c = 0x5A ↔ c.val = 0x5A := byte_eq_iff c 0x5A (by decide)
  have ed : d = 0x5A ↔ d.val = 0x5A := byte_eq_iff d 0x5A (by decide)
  by_cases ha : a.val = 0x46
  swap
  · simp [run, process_buffer, bind, Exec.bind, land, loadEq, load, pure, Exec.pure, hs, ha, ea]
  by_cases hb : b.val = 0x55
  swap
  · simp [run, process_buffer, bind, Exec.bind, land, loadEq, load, pure, Exec.pure, hs, ha, hb,
      ea, eb]
  by_cases hc : c.val = 0x5A
  swap
  · simp [run, process_buffer, bind, Exec.bind, land, loadEq, load, pure, Exec.pure, hs, ha, hb,
      hc, ea, eb, ec]
  by_cases hd : d.val = 0x5A
  swap
  · simp [run, process_buffer, bind, Exec.bind, land, loadEq, load, pure, Exec.pure, hs, ha, hb,
      hc, hd, ea, eb, ec, ed]
  by_cases h4 : 4 < size
  swap
  · simp [run, process_buffer, bind, Exec.bind, land, loadEq, load, pure, Exec.pure, hs, ha, hb,
      hc, hd, h4, ea, eb, ec, ed]
  rcases rest with _ | ⟨e, rest⟩
  · simp [run, process_buffer, bind, Exec.bind, land, loadEq, load, pure, Exec.pure, hs, ha, hb,
      hc, hd, h4, ea, eb, ec, ed]
  · have ee : e = 0x58 ↔ e.val = 0x58 := byte_eq_iff e 0x58 (by decide)
    by_cases he : e.val = 0x58 <;>
      simp [run, process_buffer, bind, Exec.bind, land, loadEq, load, pure, Exec.pure,
        nullWrite, hs, ha, hb, hc, hd, h4, he, ea, eb, ec, ed, ee]

/-- A call with `4 ≤ size` on memory of fewer than four bytes: it returns 0 at
the first byte that differs from the marker, or stops at the read just past
the memory; every index it reads is below 4. -/
theorem run_short_memory (data : List Byte) (size : Nat) (h : 4 ≤ size)
    (hl : data.length < 4) :
    ((run data size).outcome = Outcome.ret 0 ∨
        (run data size).outcome = Outcome.oob data.length) ∧
      ∀ i ∈ (run data size).reads, i < 4 := by
  have hs : ¬ size < 4 := by omega
  rcases data with _ | ⟨a, _ | ⟨b, _ | ⟨c, _ | ⟨d, rest⟩⟩⟩⟩
  · simp [run, process_buffer, bind, Exec.bind, land, loadEq, load, pure, Exec.pure,
      nullWrite, hs]
  · by_cases ha : a.val = 0x46 <;>
      simp [run, process_buffer, bind, Exec.bind, land, loadEq, load, pure, Exec.pure,
        nullWrite, hs, ha]
  · by_cases ha : a.val = 0x46 <;> by_cases hb : b.val = 0x55 <;>
      simp [run, process_buffer, bind, Exec.bind, land, loadEq, load, pure, Exec.pure,
        nullWrite, hs, ha, hb]
  · by_cases ha : a.val = 0x46 <;> by_cases hb : b.val = 0x55 <;>
      by_cases hc : c.val = 0x5A <;>
      simp [run, process_buffer, bind, Exec.bind, land, loadEq, load, pure, Exec.pure,
        nullWrite, hs, ha, hb, hc]
  · simp at hl
    omega

/-- Memory of at least four bytes, taken apart. -/
theorem exists_four (data : List Byte) (h : 4 ≤ data.length) :
    ∃ a b c d rest, data = a :: b :: c :: d :: rest := by
  rcases data with _ | ⟨a, _ | ⟨b, _ | ⟨c, _ | ⟨d, rest⟩⟩⟩⟩
  · simp at h
  · simp at h
  · simp at h
  · simp at h
  · exact ⟨a, b, c, d, rest, rfl⟩

/-- C1: when `size ≥ 5` and the first five bytes are `F,U,Z,Z,X`, whatever
follows, the call ends at the store through the null pointer and returns no
value. -/
theorem process_buffer_FUZZX_faults (data : List Byte) (size : Nat) (hsz : 5 ≤ size)
    (hpre : data.take 5 = FUZZX) :
    (run data size).outcome = Outcome.fault ∧ ∀ v, (run data size).outcome ≠ Outcome.ret v := by
  have hf : (run data size).outcome = Outcome.fault := by
    rcases data with _ | ⟨a, _ | ⟨b, _ | ⟨c, _ | ⟨d, _ | ⟨e, rest⟩⟩⟩⟩⟩ <;>
      simp [FUZZX] at hpre
    obtain ⟨rfl, rfl, rfl, rfl, rfl⟩ := hpre
    rw [run_four _ _ _ _ _ size (by omega)]
    have h4 : 4 < size := by omega
    simp [h4]
  refine ⟨hf, ?_⟩
  intro v hv
  rw [hf] at hv
  cases hv

theorem process_buffer_FUZZX_faults_witness :
    (run (FUZZX ++ [0x00, 0xFF]) 7).outcome = Outcome.fault ∧
      ∀ v, (run (FUZZX ++ [0x00, 0xFF]) 7).outcome ≠ Outcome.ret v :=
  process_buffer_FUZZX_faults (FUZZX ++ [0x00, 0xFF]) 7 (by decide) (by decide)

/-- C3: when `size < 4` the call returns 0, whatever the bytes are (and also
when there are none). -/
theorem process_buffer_small_returns_zero (data : List Byte) (size : Nat) (h : size < 4) :
    (run data size).outcome = Outcome.ret 0 := by
  rw [run_small data size h]

theorem process_buffer_small_returns_zero_witness :
    (run [0x46, 0x55, 0x5A] 3).outcome = Outcome.ret 0 :=
  process_buffer_small_returns_zero [0x46, 0x55, 0x5A] 3 (by decide)

/-- C4: when `size ≥ 4`, the memory holds `size` bytes and the first four are
not exactly `F,U,Z,Z`, the call returns 0, whatever the fifth byte is. -/
theorem process_buffer_no_marker_returns_zero (data : List Byte) (size : Nat) (h4 : 4 ≤ size)
    (hlen : size ≤ data.length) (hne : data.take 4 ≠ FUZZ) :
    (run data size).outcome = Outcome.ret 0 := by
  obtain ⟨a, b, c, d, rest, rfl⟩ := exists_four data (by omega)
  rw [run_four a b c d rest size h4]
  simp [FUZZ] at hne
  split_ifs with ha hb hc hd h5 <;> try rfl
  · exact absurd hd (hne ha hb hc)
  · exact absurd hd (hne ha hb hc)

theorem process_buffer_no_marker_returns_zero_witness :
    (run [0x46, 0x55, 0x5A, 0x5B, 0x58] 5).outcome = Outcome.ret 0 :=
  process_buffer_no_marker_returns_zero [0x46, 0x55, 0x5A, 0x5B, 0x58] 5 (by decide)
    (by decide) (by decide)

/-- C2: a call that ends at the store through the null pointer has
`size ≥ 5` and first five bytes exactly `F,U,Z,Z,X`; and when the memory holds
`size` bytes, every call that does not end there returns an integer. -/
theorem process_buffer_fault_only_on_FUZZX (data : List Byte) (size : Nat) :
    ((run data size).outcome = Outcome.fault → 5 ≤ size ∧ data.take 5 = FUZZX) ∧
      (size ≤ data.length → (run data size).outcome ≠ Outcome.fault →
        ∃ v : Int, (run data size).outcome = Outcome.ret v) := by
  by_cases hs : size < 4
  · rw [run_small data size hs]
    simp
  by_cases hl : data.length < 4
  · have hsm := (run_short_memory data size (by omega) hl).1
    constructor
    · intro hf
      rw [hf] at hsm
      simp at hsm
    · intro hlen
      omega
  obtain ⟨a, b, c, d, rest, rfl⟩ := exists_four data (by omega)
  rw [run_four a b c d rest size (by omega)]
  split_ifs with ha hb hc hd h5
  · subst ha hb hc hd
    rcases rest with _ | ⟨e, rest⟩
    · constructor
      · simp
      · intro hlen
        simp at hlen
        omega
    · by_cases he : e = 0x58
      · subst he
        simp [FUZZX]
        omega
      · simp [he]
  all_goals simp

theorem process_buffer_fault_only_on_FUZZX_witness :
    (5 ≤ 5 ∧ (FUZZX ++ [0x07]).take 5 = FUZZX) ∧
      ∃ v : Int, (run (FUZZ ++ [0x59]) 5).outcome = Outcome.ret v :=
  ⟨(process_buffer_fault_only_on_FUZZX (FUZZX ++ [0x07]) 5).1 (by decide),
    (process_buffer_fault_only_on_FUZZX (FUZZ ++ [0x59]) 5).2 (by decide) (by decide)⟩

/-- C5: when `size ≥ 4`, the memory holds `size` bytes, the first four are
`F,U,Z,Z` and the trigger is absent (`size = 4`, or `size > 4` with a fifth
byte other than `X`), the call returns 1; so do the 4-byte buffer `FUZZ` and
every 5-byte buffer `FUZZ` followed by a byte other than `X`. -/
theorem process_buffer_marker_returns_one :
    (∀ (data : List Byte) (size : Nat), 4 ≤ size → size ≤ data.length → data.take 4 = FUZZ →
        (size = 4 ∨ (4 < size ∧ data[4]? ≠ some 0x58)) →
        (run data size).outcome = Outcome.ret 1) ∧
      (run FUZZ 4).outcome = Outcome.ret 1 ∧
      ∀ e : Byte, e ≠ 0x58 → (run (FUZZ ++ [e]) 5).outcome = Outcome.ret 1 := by
  have main : ∀ (data : List Byte) (size : Nat), 4 ≤ size → size ≤ data.length →
      data.take 4 = FUZZ → (size = 4 ∨ (4 < size ∧ data[4]? ≠ some 0x58)) →
      (run data size).outcome = Outcome.ret 1 := by
    intro data size h4 hlen hpre hno
    obtain ⟨a, b, c, d, rest, rfl⟩ := exists_four data (by omega)
    rw [run_four a b c d rest size h4]
    simp [FUZZ] at hpre
    obtain ⟨rfl, rfl, rfl, rfl⟩ := hpre
    rcases hno with h | ⟨h5, hx⟩
    · subst h
      simp
    · rcases rest with _ | ⟨e, rest⟩
      · simp at hlen
        omega
      · simp at hx
        simp [h5, hx]
  refine ⟨main, ?_, ?_⟩
  · exact main FUZZ 4 (by decide) (by decide) (by decide) (Or.inl rfl)
  · intro e he
    refine main (FUZZ ++ [e]) 5 (by decide) (by simp [FUZZ]) (by simp [FUZZ]) (Or.inr ⟨by decide, ?_⟩)
    simp [FUZZ, he]

theorem process_buffer_marker_returns_one_witness :
    (run (FUZZ ++ [0x59, 0x58]) 6).outcome = Outcome.ret 1 :=
  process_buffer_marker_returns_one.1 (FUZZ ++ [0x59, 0x58]) 6 (by decide) (by decide)
    (by decide) (Or.inr ⟨by decide, by decide⟩)

/-- C6: every index the call reads is below `size`, for every memory and every
`size`; when the memory holds `size` bytes (exactly, or more) no read falls
outside it; index 4 is not read when `size = 4`, and nothing is read when
`size < 4`. -/
theorem process_buffer_reads_below_size (data : List Byte) (size : Nat) :
    (∀ i ∈ (run data size).reads, i < size) ∧
      (size ≤ data.length → ∀ i, (run data size).outcome ≠ Outcome.oob i) ∧
      (size = 4 → 4 ∉ (run data size).reads) ∧
      (size < 4 → (run data size).reads = []) := by
  have hreads : ∀ i ∈ (run data size).reads, i < size := by
    by_cases hs : size < 4
    · rw [run_small data size hs]
      simp
    by_cases hl : data.length < 4
    · intro i hi
      have := (run_short_memory data size (by omega) hl).2 i hi
      omega
    obtain ⟨a, b, c, d, rest, rfl⟩ := exists_four data (by omega)
    rw [run_four a b c d rest size (by omega)]
    intro i hi
    split_ifs at hi with ha hb hc hd h5
    · rcases rest with _ | ⟨e, rest⟩
      · simp at hi
        omega
      · by_cases he : e = 0x58
        · simp [he] at hi
          omega
        · simp [he] at hi
          omega
    all_goals
      simp at hi
      omega
  refine ⟨hreads, ?_, ?_, ?_⟩
  · intro hlen i
    by_cases hs : size < 4
    · rw [run_small data size hs]
      simp
    obtain ⟨a, b, c, d, rest, rfl⟩ := exists_four data (by omega)
    rw [run_four a b c d rest size (by omega)]
    split_ifs with ha hb hc hd h5
    · rcases rest with _ | ⟨e, rest⟩
      · simp at hlen
        omega
      · by_cases he : e = 0x58 <;> simp [he]
    all_goals simp
  · intro h hmem
    have := hreads 4 hmem
    omega
  · intro hs
    rw [run_small data size hs]

theorem process_buffer_reads_below_size_witness :
    (∀ i ∈ (run FUZZ 4).reads, i < 4) ∧
      (∀ i, (run FUZZ 4).outcome ≠ Outcome.oob i) ∧
      4 ∉ (run FUZZ 4).reads ∧
      (run [0x46, 0x55, 0x5A] 3).reads = [] :=
  ⟨(process_buffer_reads_below_size FUZZ 4).1,
    (process_buffer_reads_below_size FUZZ 4).2.1 (by decide),
    (process_buffer_reads_below_size FUZZ 4).2.2.1 rfl,
    (process_buffer_reads_below_size [0x46, 0x55, 0x5A] 3).2.2.2 (by decide)⟩

/-- C7: when the memory holds `size` bytes and the trigger condition (marker
matched, `size > 4`, fifth byte `X`) does not hold, the call returns, and the
value is 0 or 1. -/
theorem process_buffer_returns_zero_or_one (data : List Byte) (size : Nat)
    (hlen : size ≤ data.length)
    (hnt : ¬ (data.take 4 = FUZZ ∧ 4 < size ∧ data[4]? = some 0x58)) :
    (run data size).outcome = Outcome.ret 0 ∨ (run data size).outcome = Outcome.ret 1 := by
  by_cases hs : size < 4
  · rw [run_small data size hs]
    simp
  obtain ⟨a, b, c, d, rest, rfl⟩ := exists_four data (by omega)
  rw [run_four a b c d rest size (by omega)]
  split_ifs with ha hb hc hd h5
  · subst ha hb hc hd
    rcases rest with _ | ⟨e, rest⟩
    · simp at hlen
      omega
    · by_cases he : e = 0x58
      · subst he
        exact absurd ⟨by simp [FUZZ], h5, by simp⟩ hnt
      · simp [he]
  all_goals simp

theorem process_buffer_returns_zero_or_one_witness :
    (run (FUZZ ++ [0x58]) 4).outcome = Outcome.ret 0 ∨
      (run (FUZZ ++ [0x58]) 4).outcome = Outcome.ret 1 :=
  process_buffer_returns_zero_or_one (FUZZ ++ [0x58]) 4 (by decide) (by decide)

/-- C8: when the call returns a value, that value is 1 exactly when
`size ≥ 4` and the first four bytes are `F,U,Z,Z`, and it is 0 otherwise. -/
theorem process_buffer_flag_iff_marker (data : List Byte) (size : Nat) (v : Int)
    (hret : (run data size).outcome = Outcome.ret v) :
    (v = 1 ↔ 4 ≤ size ∧ data.take 4 = FUZZ) ∧
      (¬ (4 ≤ size ∧ data.take 4 = FUZZ) → v = 0) := by
  by_cases hs : size < 4
  · rw [run_small data size hs] at hret
    simp at hret
    subst hret
    constructor
    · constructor
      · intro h
        simp at h
      · intro h
        omega
    · intro _
      rfl
  by_cases hl : data.length < 4
  · have htake : data.take 4 ≠ FUZZ := by
      intro h
      have := congrArg List.length h
      simp [FUZZ] at this
      omega
    rcases (run_short_memory data size (by omega) hl).1 with h0 | h0
    · rw [h0] at hret
      simp at hret
      subst hret
      simp [htake]
    · rw [h0] at hret
      simp at hret
  obtain ⟨a, b, c, d, rest, rfl⟩ := exists_four data (by omega)
  rw [run_four a b c d rest size (by omega)] at hret
  have h4 : 4 ≤ size := by omega
  split_ifs at hret with ha hb hc hd h5
  · subst ha hb hc hd
    rcases rest with _ | ⟨e, rest⟩
    · simp at hret
    · by_cases he : e = 0x58
      · simp [he] at hret
      · simp [he] at hret
        subst hret
        simp [FUZZ, h4]
  · subst ha hb hc hd
    simp at hret
    subst hret
    simp [FUZZ, h4]
  all_goals
    simp at hret
    subst hret
    simp [FUZZ, h4]
    try tauto

theorem process_buffer_flag_iff_marker_witness :
    ((1 : Int) = 1 ↔ 4 ≤ 5 ∧ (FUZZ ++ [0x59]).take 4 = FUZZ) ∧
      (¬ (4 ≤ 5 ∧ (FUZZ ++ [0x59]).take 4 = FUZZ) → (1 : Int) = 0) :=
  process_buffer_flag_iff_marker (FUZZ ++ [0x59]) 5 1 (by decide)

/-- C9: two calls on memory holding `size` bytes each, with the same
`min size 5` and the same first `min size 5` bytes, end the same way (and read
the same indices); so two buffers of at least five bytes with the same first
five bytes have the same outcome, whatever stands at index 5 and beyond. -/
theorem process_buffer_depends_on_first_five :
    (∀ (d1 d2 : List Byte) (s1 s2 : Nat), s1 ≤ d1.length → s2 ≤ d2.length →
        min s1 5 = min s2 5 → d1.take (min s1 5) = d2.take (min s2 5) →
        run d1 s1 = run d2 s2) ∧
      ∀ (p t1 t2 : List Byte), p.length = 5 →
        (run (p ++ t1) (p ++ t1).length).outcome = (run (p ++ t2) (p ++ t2).length).outcome := by
  have main : ∀ (d1 d2 : List Byte) (s1 s2 : Nat), s1 ≤ d1.length → s2 ≤ d2.length →
      min s1 5 = min s2 5 → d1.take (min s1 5) = d2.take (min s2 5) →
      run d1 s1 = run d2 s2 := by
    intro d1 d2 s1 s2 h1 h2 hm ht
    by_cases hs : s1 < 4
    · have hs2 : s2 < 4 := by omega
      rw [run_small d1 s1 hs, run_small d2 s2 hs2]
    obtain ⟨a, b, c, d, r1, rfl⟩ := exists_four d1 (by omega)
    obtain ⟨a2, b2, c2, d2, r2, rfl⟩ := exists_four d2 (by omega)
    rw [run_four a b c d r1 s1 (by omega), run_four a2 b2 c2 d2 r2 s2 (by omega)]
    by_cases h5 : 4 < s1
    · have h52 : 4 < s2 := by omega
      have e1 : min s1 5 = 5 := by omega
      have e2 : min s2 5 = 5 := by omega
      rw [e1, e2] at ht
      rcases r1 with _ | ⟨e, r1⟩
      · simp at h1
        omega
      rcases r2 with _ | ⟨e2, r2⟩
      · simp at h2
        omega
      simp at ht
      obtain ⟨rfl, rfl, rfl, rfl, rfl⟩ := ht
      simp [h5, h52]
    · have h52 : ¬ 4 < s2 := by omega
      have e1 : min s1 5 = 4 := by omega
      have e2 : min s2 5 = 4 := by omega
      rw [e1, e2] at ht
      simp at ht
      obtain ⟨rfl, rfl, rfl, rfl⟩ := ht
      simp [h5, h52]
  refine ⟨main, ?_⟩
  intro p t1 t2 hp
  have e : run (p ++ t1) (p ++ t1).length = run (p ++ t2) (p ++ t2).length := by
    apply main _ _ _ _ (le_refl _) (le_refl _)
    · simp [hp]
    · have m1 : min (p ++ t1).length 5 = p.length := by simp [hp]
      have m2 : min (p ++ t2).length 5 = p.length := by simp [hp]
      rw [m1, m2]
      simp
  rw [e]

theorem process_buffer_depends_on_first_five_witness :
    run (FUZZX ++ [0x01, 0x02, 0x03]) 8 = run (FUZZX ++ [0xFF]) 6 :=
  process_buffer_depends_on_first_five.1 (FUZZX ++ [0x01, 0x02, 0x03]) (FUZZX ++ [0xFF]) 8 6
    (by decide) (by decide) (by decide) (by decide)

/-- C10: for a buffer `b` of at least four bytes and any appended bytes `c`,
the call on `b ++ c` returns 0 exactly when the call on `b` returns 0; and the
two outcomes differ only when `b` is the 4-byte buffer `FUZZ`, which returns
1, and `c` starts with `X`, which makes the longer call fault. -/
theorem process_buffer_zero_stable_under_append (b c : List Byte) (h : 4 ≤ b.length) :
    ((run (b ++ c) (b ++ c).length).outcome = Outcome.ret 0 ↔
        (run b b.length).outcome = Outcome.ret 0) ∧
      ((run (b ++ c) (b ++ c).length).outcome ≠ (run b b.length).outcome →
        b = FUZZ ∧ c.head? = some 0x58 ∧ (run b b.length).outcome = Outcome.ret 1 ∧
          (run (b ++ c) (b ++ c).length).outcome = Outcome.fault) := by
  obtain ⟨x0, x1, x2, x3, rest, rfl⟩ := exists_four b h
  have hcons : (x0 :: x1 :: x2 :: x3 :: rest) ++ c = x0 :: x1 :: x2 :: x3 :: (rest ++ c) := rfl
  rw [hcons, run_four x0 x1 x2 x3 (rest ++ c) _ (by simp),
    run_four x0 x1 x2 x3 rest _ (by simp)]
  by_cases h0 : x0 = 0x46
  swap
  · simp [h0]
  by_cases h1 : x1 = 0x55
  swap
  · simp [h0, h1]
  by_cases h2 : x2 = 0x5A
  swap
  · simp [h0, h1, h2]
  by_cases h3 : x3 = 0x5A
  swap
  · simp [h0, h1, h2, h3]
  subst h0 h1 h2 h3
  rcases rest with _ | ⟨e, rest⟩
  · rcases c with _ | ⟨y, c⟩
    · simp
    · by_cases hy : y = 0x58
      · subst hy
        simp [FUZZ]
      · simp [hy]
  · by_cases he : e = 0x58 <;> simp [he]

theorem process_buffer_zero_stable_under_append_witness :
    ((run (FUZZ ++ [0x58]) (FUZZ ++ [0x58]).length).outcome = Outcome.ret 0 ↔
        (run FUZZ FUZZ.length).outcome = Outcome.ret 0) ∧
      ((run (FUZZ ++ [0x58]) (FUZZ ++ [0x58]).length).outcome ≠ (run FUZZ FUZZ.length).outcome →
        FUZZ = FUZZ ∧ [(0x58 : Byte)].head? = some 0x58 ∧
          (run FUZZ FUZZ.length).outcome = Outcome.ret 1 ∧
          (run (FUZZ ++ [0x58]) (FUZZ ++ [0x58]).length).outcome = Outcome.fault) :=
  process_buffer_zero_stable_under_append FUZZ [0x58] (by decide)

end Target
